import Mathlib

/-!
Verification of the selection/mapping node (`GetNonzeros`) of the CasADi
symbolic expression-graph engine, shallowly embedded from
`src/symbolic/mx/getnonzeros.cpp`.

Buffers of scalars are modelled as `List Int` (numeric sweeps) or
`List Bool` (dependency-taint sweeps), addressed by nonzero index.  A
possibly-absent buffer pointer (`DMatrix*` that may be null) is an
`Option`.  C++ loops writing through indices become folds over
`List.range`, with `List.set` / `List.getD` for element access.
-/

namespace CasADi

/-! ### Sparsity pattern (CRSSparsity)

The compressed row storage sparsity pattern of CasADi: `nrow`/`ncol`
dimensions, `rowind` row offsets and `col` the column of each nonzero.
Structural equality of patterns (`operator==`) is equality of all four
fields. -/

structure CRSSparsity where
  nrow : Nat
  ncol : Nat
  rowind : List Nat
  col : List Nat
deriving DecidableEq

/-- Nonzero count (`CRSSparsity::size()`). -/
def CRSSparsity.size (sp : CRSSparsity) : Nat := sp.col.length

/-! ### The GetNonzeros node

A node holds its output sparsity pattern `sp`, the sparsity patterns of
its dependencies (`deps`; dependency nodes matter for these claims only
through their sparsity), and the source-index table `assigns_`. -/

structure GetNonzeros where
  sp : CRSSparsity
  deps : List CRSSparsity
  assigns : List Nat
deriving DecidableEq

/-- GetNonzeros constructor (getnonzeros.cpp:36-39): stores the output
sparsity and sizes `assigns_` to `sp.size()` entries.  A freshly resized
`std::vector<int>` is zero-filled. -/
def GetNonzeros.ofSparsity (sp : CRSSparsity) : GetNonzeros :=
  { sp := sp, deps := [], assigns := List.replicate sp.size 0 }

/-! ### Index-addressed writes

`writeAll f m out` performs `for (k = 0; k < m; ++k) out[k] = f k;` for a
write value `f k` that does not depend on `out`. -/

def writeAll {α : Type} (f : Nat → α) (m : Nat) (out : List α) : List α :=
  (List.range m).foldl (fun o k => o.set k (f k)) out

/-- Gather loop (getnonzeros.cpp:63-65 and 71-73):
`for k: out[k] = in[assigns_[k]]`.  `z` is the scalar default used by
`getD` for (never taken in well-formed sweeps) out-of-range reads. -/
def gatherWrite {α : Type} (z : α) (assigns : List Nat) (inp out : List α) : List α :=
  writeAll (fun k => inp.getD (assigns.getD k 0) z) assigns.length out

/-! ### Scatter-accumulate with clearing

`scatterPass op z assigns (sens, seed)` performs the reverse loop of
getnonzeros.cpp:80-83 / 103-104:
`for k: sens[assigns_[k]] = op sens[assigns_[k]] seed[k]; seed[k] = z;`
with `op = (+), z = 0` for adjoints and `op = (||), z = false` for
taints. -/

def scatterStep {α : Type} (op : α → α → α) (z : α) (assigns : List Nat)
    (st : List α × List α) (k : Nat) : List α × List α :=
  (st.1.set (assigns.getD k 0) (op (st.1.getD (assigns.getD k 0) z) (st.2.getD k z)),
   st.2.set k z)

def scatterPass {α : Type} (op : α → α → α) (z : α) (assigns : List Nat)
    (st : List α × List α) : List α × List α :=
  (List.range assigns.length).foldl (scatterStep op z assigns) st

/-- Partial scatter loop: the first `m` iterations. -/
def scatterAux {α : Type} (op : α → α → α) (z : α) (assigns : List Nat) (m : Nat)
    (st : List α × List α) : List α × List α :=
  (List.range m).foldl (scatterStep op z assigns) st

/-! ### GetNonzeros::evaluateGen (getnonzeros.cpp:53-86)

The generic numeric sweep hook.  The scalar type `T` is modelled as
`Int`; a null matrix pointer is `none`.  There is exactly one input
(`casadi_assert(input.size()==1)`), one output, `nfwd = fwdSens.size()`
forward directions and `nadj = adjSeed.size()` reverse directions. -/

structure EvalArgs where
  input : Option (List Int)
  output : Option (List Int)
  fwdSeed : List (Option (List Int))
  fwdSens : List (Option (List Int))
  adjSeed : List (Option (List Int))
  adjSens : List (Option (List Int))
deriving DecidableEq

/-- Reverse adjoint loop for one direction (getnonzeros.cpp:80-83):
`for k: adjSens[assigns_[k]] += adjSeed[k]; adjSeed[k] = 0;`. -/
def adjointPass (assigns : List Nat) (st : List Int × List Int) : List Int × List Int :=
  scatterPass (· + ·) 0 assigns st

def evaluateGen (assigns : List Nat) (b : EvalArgs) : EvalArgs :=
  let output :=
    match b.input, b.output with
    | some i, some o => some (gatherWrite 0 assigns i o)
    | _, _ => b.output
  let fwdSens := (List.range b.fwdSens.length).map fun d =>
    match b.fwdSeed.getD d none, b.fwdSens.getD d none with
    | some i, some o => some (gatherWrite 0 assigns i o)
    | _, _ => b.fwdSens.getD d none
  let adj := (List.range b.adjSeed.length).foldl
    (fun (st : List (Option (List Int)) × List (Option (List Int))) d =>
      match st.1.getD d none, st.2.getD d none with
      | some seed, some sens =>
        let r := adjointPass assigns (sens, seed)
        (st.1.set d (some r.2), st.2.set d (some r.1))
      | _, _ => st)
    (b.adjSeed, b.adjSens)
  { input := b.input, output := output, fwdSeed := b.fwdSeed, fwdSens := fwdSens,
    adjSeed := adj.1, adjSens := adj.2 }

/-! ### GetNonzeros::propagateSparsity (getnonzeros.cpp:88-108)

Dependency-taint propagation.  A `bvec_t` taint word is modelled as
`Bool`; the function returns the updated (input, output) taint buffers. -/

def propagateSparsity (assigns : List Nat) (input output : Option (List Bool))
    (fwd : Bool) : Option (List Bool) × Option (List Bool) :=
  match input, output with
  | some i, some o =>
    if fwd then
      (some i, some (gatherWrite false assigns i o))
    else
      let r := scatterPass (· || ·) false assigns (i, o)
      (some r.1, some r.2)
  | _, _ => (input, output)

/-- Identity check: false unless the output sparsity equals the
dependency's sparsity, then true iff the nonzeros follow in increasing
order (`assigns_[k] == k`).  A finalized node has exactly one dependency
(`init` asserts `ndep()==1`), so the dependency-less branch is
unreachable on finalized nodes. -/
def GetNonzeros.isIdentity (n : GetNonzeros) : Bool :=
  match n.deps.head? with
  | none => false
  | some dsp =>
    if n.sp = dsp then
      (List.range n.assigns.length).all fun k => n.assigns.getD k 0 == k
    else false

/-! ### GetNonzeros::assign (getnonzeros.cpp:136-150) -/

inductive CtorError where
  | ShapeMismatch : CtorError
  | DanglingDependency : CtorError
deriving DecidableEq

deriving instance DecidableEq for Except

/-- Mapping installation during construction.  The `casadi_assert`
failures are surfaced as `Except.error`: a null dependency raises
`DanglingDependency` (line 140) and a mapping-length/output-size
mismatch raises `ShapeMismatch` (line 141) — in that evaluation order.
An empty `inz` returns before any check (line 138).  On success the
dependency is recorded (`addDependency`, line 144; the already-present
branch of `addDependency` matters only for node sharing, not here) and
the loop at lines 147-149 copies `inz` into `assigns_`.  The final
`add` flag of the C++ signature is unused by the body. -/
def GetNonzeros.assign (n : GetNonzeros) (d : Option CRSSparsity) (inz : List Nat)
    (_add : Bool) : Except CtorError GetNonzeros :=
  if inz.isEmpty then Except.ok n
  else
    match d with
    | none => Except.error CtorError.DanglingDependency
    | some dsp =>
      if inz.length = n.sp.size then
        Except.ok { n with deps := n.deps ++ [dsp],
                           assigns := writeAll (fun k => inz.getD k 0) inz.length n.assigns }
      else Except.error CtorError.ShapeMismatch

/-- Clearing of the cached runtime vector (`assigns2_.clear()`,
getnonzeros.cpp:159). -/
def clearVec (_old : List (Nat × Nat)) : List (Nat × Nat) := []

/-- Cached pair list built by `init`: clear the previous `assigns2_`
contents, then push the pair `(assigns_[onz], onz)` for every output
nonzero `onz` in output order (getnonzeros.cpp:158-164). -/
def initAssigns2 (old : List (Nat × Nat)) (assigns : List Nat) : List (Nat × Nat) :=
  (List.range assigns.length).foldl
    (fun a2 onz => a2.concat (assigns.getD onz 0, onz)) (clearVec old)

/-- Symbolic matrix expressions, as far as the adjoint-seed clearing of
`evaluateMX` observes them: `MX()` — the default-constructed empty
expression used as the cleared / structural-zero seed (line 375) — and
arbitrary other expressions. -/
inductive MXExpr where
  | nullExpr : MXExpr
  | node : Nat → MXExpr
deriving DecidableEq

/-- Final loop of `evaluateMX` over the reverse directions: every
present adjoint seed (`adjSeed[d][0] != 0`) is overwritten with `MX()`;
an absent pointer is left alone. -/
def clearAdjSeeds (adjSeed : List (Option MXExpr)) : List (Option MXExpr) :=
  adjSeed.map fun s =>
    match s with
    | some _ => some MXExpr.nullExpr
    | none => none

/-- Histogram pass (lines 211-214): slot `i+1` counts how many cached
pairs read input nonzero `i`. -/
def inzCountHist (a2 : List (Nat × Nat)) (innz : Nat) : List Nat :=
  a2.foldl (fun c p => c.set (p.1 + 1) (c.getD (p.1 + 1) 0 + 1))
    (List.replicate (innz + 1) 0)

/-- Prefix-sum pass (lines 217-219): `inz_count[i+1] += inz_count[i]`. -/
def inzCountCum (c : List Nat) (innz : Nat) : List Nat :=
  (List.range innz).foldl (fun c i => c.set (i + 1) (c.getD (i + 1) 0 + c.getD i 0)) c

/-- Placement step (line 225): `assigns2_order[inz_count[first]++] = k`. -/
def orderStep (a2 : List (Nat × Nat)) (st : List Nat × List Nat) (k : Nat) :
    List Nat × List Nat :=
  (st.1.set (a2.getD k (0, 0)).1 (st.1.getD (a2.getD k (0, 0)).1 0 + 1),
   st.2.set (st.1.getD (a2.getD k (0, 0)).1 0) k)

/-- Partial placement loop: the first `m` iterations of lines 223-226. -/
def orderAux (a2 : List (Nat × Nat)) (m : Nat) (st : List Nat × List Nat) :
    List Nat × List Nat :=
  (List.range m).foldl (orderStep a2) st

/-- The per-call `assigns2_order` table. -/
def assigns2Order (a2 : List (Nat × Nat)) (innz : Nat) : List Nat :=
  (orderAux a2 a2.length
    (inzCountCum (inzCountHist a2 innz) innz, List.replicate a2.length 0)).2

/-- Grouped traversal order of the cached pairs: the sequence
`assigns2_[assigns2_order[k]]`, `k = 0, 1, ...`, visited by the loops of
evaluateMX (getnonzeros.cpp:230-236 and 248-252). -/
def groupedPairs (assigns : List Nat) (innz : Nat) : List (Nat × Nat) :=
  (assigns2Order (initAssigns2 [] assigns) innz).map
    fun j => (initAssigns2 [] assigns).getD j (0, 0)

/-- Input index read by cached pair `k`. -/
def keyAt (a2 : List (Nat × Nat)) (k : Nat) : Nat := (a2.getD k (0, 0)).1

/-- Number of cached pairs whose input index is below `v`. -/
def cntLt (a2 : List (Nat × Nat)) (v : Nat) : Nat :=
  (a2.filter (fun q => q.1 < v)).length

/-- Number of cached pairs whose input index equals `v`. -/
def cntEq (a2 : List (Nat × Nat)) (v : Nat) : Nat :=
  (a2.filter (fun q => q.1 = v)).length

/-- Number of cached pairs before position `m` whose input index equals
`v`. -/
def cntEqPfx (a2 : List (Nat × Nat)) (v m : Nat) : Nat :=
  ((a2.take m).filter (fun q => q.1 = v)).length

/-- Final position of cached pair `j` under the stable input-index
grouping: all pairs with a smaller input index come first, then the
earlier pairs with the same input index. -/
def posOf (a2 : List (Nat × Nat)) (j : Nat) : Nat :=
  cntLt a2 (keyAt a2 j) + cntEqPfx a2 (keyAt a2 j) j

/-- Partial prefix-sum loop (the first `m` iterations of lines
217-219). -/
def cumAux (c : List Nat) (m : Nat) : List Nat :=
  (List.range m).foldl (fun c i => c.set (i + 1) (c.getD (i + 1) 0 + c.getD i 0)) c

/-- Emitted statements: `zeroFill res m` renders
`for(i=0; i<m; ++i) res[i]=0;` and `accumLoop res arg i1 i2 m` renders
`for(i=0; i<m; ++i) res[s<i2>[i]] += arg[s<i1>[i]];`. -/
inductive GenStmt where
  | zeroFill : String → Nat → GenStmt
  | accumLoop : String → String → Nat → Nat → Nat → GenStmt
deriving DecidableEq

structure CodeGenerator where
  constants : List (List Nat)
deriving DecidableEq

/-- Modelled from the spec: `CodeGenerator::getConstant` belongs to the
code-generation infrastructure that is not among the sources here.  Per
the spec, index tables are "interned by content — two nodes with
identical `assigns` tables must share one emitted constant array" and
"constant pool entries are referenced by an opaque integer handle unique
per distinct content": a vector already in the pool returns its existing
index, a new vector is appended and its fresh index returned. -/
def CodeGenerator.getConstant (g : CodeGenerator) (v : List Nat) : Nat × CodeGenerator :=
  match g.constants.findIdx? (fun w => w = v) with
  | some i => (i, g)
  | none => (g.constants.length, ⟨g.constants.concat v⟩)

/-- Code emission for a node (getnonzeros.cpp:415-432): one zero-fill
statement over the full output nonzero range, then the two columns of
the cached pair list `assigns2_` are interned as constants and a single
accumulate statement over them is emitted. -/
def generateOperation (node : GetNonzeros) (arg res : String) (gen : CodeGenerator) :
    List GenStmt × CodeGenerator :=
  let a2 := initAssigns2 [] node.assigns
  let tmp1 := a2.map Prod.fst
  let tmp2 := a2.map Prod.snd
  let r1 := gen.getConstant tmp1
  let r2 := r1.2.getConstant tmp2
  ([GenStmt.zeroFill res node.sp.size,
    GenStmt.accumLoop res arg r1.1 r2.1 a2.length], r2.2)

/-! ### Proof development: properties of the embedded operations -/

/-! ### Generic list access lemmas used throughout -/

theorem getD_set_self {α : Type} (l : List α) (i : Nat) (x d : α) (h : i < l.length) :
    (l.set i x).getD i d = x := by
  rw [List.getD_eq_getElem?_getD, List.getElem?_set_self h]
  rfl

theorem getD_set_of_ne {α : Type} (l : List α) {i j : Nat} (x d : α) (h : i ≠ j) :
    (l.set i x).getD j d = l.getD j d := by
  rw [List.getD_eq_getElem?_getD, List.getElem?_set_ne h, ← List.getD_eq_getElem?_getD]

theorem getD_oob {α : Type} (l : List α) {i : Nat} (d : α) (h : l.length ≤ i) :
    l.getD i d = d := by
  rw [List.getD_eq_getElem?_getD, List.getElem?_eq_none h]
  rfl

theorem set_getD_self {α : Type} (l : List α) (i : Nat) (d : α) :
    l.set i (l.getD i d) = l := by
  by_cases h : i < l.length
  · apply List.ext_getElem?
    intro n
    rw [List.getElem?_set]
    by_cases hin : i = n
    · subst hin
      simp [h, List.getD_eq_getElem l d h, List.getElem?_eq_getElem h]
    · simp [hin]
  · exact List.set_eq_of_length_le (Nat.le_of_not_lt h)

theorem foldl_fixed {α β : Type} {f : β → α → β} {b : β} {l : List α}
    (h : ∀ x ∈ l, f b x = b) : l.foldl f b = b := by
  induction l with
  | nil => rfl
  | cons x xs ih =>
    rw [List.foldl_cons, h x (List.mem_cons_self x xs)]
    exact ih fun y hy => h y (List.mem_cons_of_mem x hy)

theorem writeAll_succ {α : Type} (f : Nat → α) (m : Nat) (out : List α) :
    writeAll f (m + 1) out = (writeAll f m out).set m (f m) := by
  unfold writeAll
  rw [List.range_succ, List.foldl_concat]

theorem writeAll_length {α : Type} (f : Nat → α) (m : Nat) (out : List α) :
    (writeAll f m out).length = out.length := by
  induction m with
  | zero => rfl
  | succ m ih => rw [writeAll_succ, List.length_set, ih]

theorem writeAll_getD {α : Type} (f : Nat → α) (m : Nat) (out : List α) (k : Nat) (d : α) :
    (writeAll f m out).getD k d =
      if k < m ∧ k < out.length then f k else out.getD k d := by
  induction m with
  | zero => simp [writeAll]
  | succ m ih =>
    rw [writeAll_succ]
    by_cases hkm : k = m
    · subst hkm
      by_cases hlen : k < out.length
      · rw [getD_set_self]
        · simp [hlen]
        · rw [writeAll_length]; exact hlen
      · rw [List.set_eq_of_length_le]
        · rw [ih]; simp [hlen]
        · rw [writeAll_length]; exact Nat.le_of_not_lt hlen
    · rw [getD_set_of_ne _ _ _ (fun h => hkm h.symm), ih]
      have heq : (k < m ∧ k < out.length) ↔ (k < m + 1 ∧ k < out.length) := by
        constructor
        · rintro ⟨h1, h2⟩; exact ⟨Nat.lt_succ_of_lt h1, h2⟩
        · rintro ⟨h1, h2⟩; exact ⟨Nat.lt_of_le_of_ne (Nat.lt_succ_iff.mp h1) hkm, h2⟩
      rw [if_congr heq rfl rfl]

theorem scatterPass_eq_aux {α : Type} (op : α → α → α) (z : α) (assigns : List Nat)
    (st : List α × List α) :
    scatterPass op z assigns st = scatterAux op z assigns assigns.length st := rfl

theorem scatterAux_succ {α : Type} (op : α → α → α) (z : α) (assigns : List Nat) (m : Nat)
    (st : List α × List α) :
    scatterAux op z assigns (m + 1) st =
      scatterStep op z assigns (scatterAux op z assigns m st) m := by
  unfold scatterAux
  rw [List.range_succ, List.foldl_concat]

theorem scatterAux_fst_length {α : Type} (op : α → α → α) (z : α) (assigns : List Nat)
    (m : Nat) (st : List α × List α) :
    (scatterAux op z assigns m st).1.length = st.1.length := by
  induction m with
  | zero => rfl
  | succ m ih => rw [scatterAux_succ]; unfold scatterStep; rw [List.length_set, ih]

theorem scatterAux_snd_length {α : Type} (op : α → α → α) (z : α) (assigns : List Nat)
    (m : Nat) (st : List α × List α) :
    (scatterAux op z assigns m st).2.length = st.2.length := by
  induction m with
  | zero => rfl
  | succ m ih => rw [scatterAux_succ]; unfold scatterStep; rw [List.length_set, ih]

/-- After the first `m` iterations, the seed buffer holds `z` at every
already-visited position and its original value elsewhere. -/
theorem scatterAux_snd_getD {α : Type} (op : α → α → α) (z : α) (assigns : List Nat)
    (m : Nat) (sens seed : List α) (k : Nat) :
    (scatterAux op z assigns m (sens, seed)).2.getD k z =
      if k < m then z else seed.getD k z := by
  induction m with
  | zero => simp [scatterAux]
  | succ m ih =>
    rw [scatterAux_succ]
    unfold scatterStep
    by_cases hkm : k = m
    · subst hkm
      simp only [Nat.lt_succ_self, if_pos]
      by_cases hlen : k < (scatterAux op z assigns k (sens, seed)).2.length
      · exact getD_set_self _ _ _ _ hlen
      · rw [List.set_eq_of_length_le (Nat.le_of_not_lt hlen)]
        exact getD_oob _ _ (Nat.le_of_not_lt hlen)
    · rw [getD_set_of_ne _ _ _ (fun h => hkm h.symm), ih]
      have heq : k < m ↔ k < m + 1 :=
        ⟨Nat.lt_succ_of_lt, fun h => Nat.lt_of_le_of_ne (Nat.lt_succ_iff.mp h) hkm⟩
      rw [if_congr heq rfl rfl]

/-- After the first `m` iterations, an in-range slot `i` of the
accumulation buffer holds its original value combined (left to right)
with the original seed values of every visited position assigned to
`i`. -/
theorem scatterAux_fst_getD {α : Type} (op : α → α → α) (z : α) (assigns : List Nat)
    (m : Nat) (sens seed : List α) (i : Nat) (hi : i < sens.length) :
    (scatterAux op z assigns m (sens, seed)).1.getD i z =
      ((List.range m).filter (fun k => assigns.getD k 0 = i)).foldl
        (fun acc k => op acc (seed.getD k z)) (sens.getD i z) := by
  induction m with
  | zero => simp [scatterAux]
  | succ m ih =>
    rw [scatterAux_succ, List.range_succ, List.filter_append, List.foldl_append]
    unfold scatterStep
    have hseed : (scatterAux op z assigns m (sens, seed)).2.getD m z = seed.getD m z := by
      rw [scatterAux_snd_getD]
      simp
    by_cases ha : assigns.getD m 0 = i
    · have hfst : i < (scatterAux op z assigns m (sens, seed)).1.length := by
        rw [scatterAux_fst_length]; exact hi
      have hfilter : List.filter (fun k => decide (assigns.getD k 0 = i)) [m] = [m] := by
        rw [List.filter_cons, if_pos (decide_eq_true ha), List.filter_nil]
      rw [ha, getD_set_self _ _ _ _ hfst, hseed, ih, hfilter, List.foldl_cons, List.foldl_nil]
    · have hfilter : List.filter (fun k => decide (assigns.getD k 0 = i)) [m] = [] := by
        rw [List.filter_cons, if_neg (fun h => ha (of_decide_eq_true h)), List.filter_nil]
      rw [getD_set_of_ne _ _ _ ha, ih, hfilter, List.foldl_nil]

theorem scatterPass_snd_getD {α : Type} (op : α → α → α) (z : α) (assigns : List Nat)
    (sens seed : List α) (k : Nat) (hk : k < assigns.length) :
    (scatterPass op z assigns (sens, seed)).2.getD k z = z := by
  rw [scatterPass_eq_aux, scatterAux_snd_getD]
  simp [hk]

theorem scatterPass_fst_getD {α : Type} (op : α → α → α) (z : α) (assigns : List Nat)
    (sens seed : List α) (i : Nat) (hi : i < sens.length) :
    (scatterPass op z assigns (sens, seed)).1.getD i z =
      ((List.range assigns.length).filter (fun k => assigns.getD k 0 = i)).foldl
        (fun acc k => op acc (seed.getD k z)) (sens.getD i z) :=
  scatterAux_fst_getD op z assigns assigns.length sens seed i hi

/-- Running the scatter loop a second time changes nothing: the first
run has cleared every seed slot it reads, so every step of the second
run is the identity (given that `z` is a right identity for `op`). -/
theorem scatterPass_idem {α : Type} (op : α → α → α) (z : α) (assigns : List Nat)
    (st : List α × List α) (hz : ∀ x, op x z = x) :
    scatterPass op z assigns (scatterPass op z assigns st) = scatterPass op z assigns st := by
  obtain ⟨sens, seed⟩ := st
  show (List.range assigns.length).foldl (scatterStep op z assigns)
      (scatterPass op z assigns (sens, seed)) = scatterPass op z assigns (sens, seed)
  apply foldl_fixed
  intro k hk
  rw [List.mem_range] at hk
  have hseed : (scatterPass op z assigns (sens, seed)).2.getD k z = z :=
    scatterPass_snd_getD op z assigns sens seed k hk
  generalize hP : scatterPass op z assigns (sens, seed) = P at hseed ⊢
  obtain ⟨s2, e2⟩ := P
  unfold scatterStep
  simp only at hseed ⊢
  rw [hseed, hz, set_getD_self]
  have he : e2.set k z = e2 := by
    conv_lhs => rw [← hseed]
    exact set_getD_self _ _ _
  rw [he]

/-! ### Closed forms for the accumulation folds -/

theorem foldl_add_eq_sum (f : Nat → Int) (b : Int) (l : List Nat) :
    l.foldl (fun acc k => acc + f k) b = b + (l.map f).sum := by
  induction l generalizing b with
  | nil => simp
  | cons x xs ih =>
    rw [List.foldl_cons, ih, List.map_cons, List.sum_cons]
    ring

theorem foldl_or_eq_any (f : Nat → Bool) (b : Bool) (l : List Nat) :
    l.foldl (fun acc k => acc || f k) b = (b || l.any f) := by
  induction l generalizing b with
  | nil => simp
  | cons x xs ih =>
    rw [List.foldl_cons, ih, List.any_cons, Bool.or_assoc]

/-- Shape of `evaluateGen` for a sweep carrying exactly one reverse
direction and no primal/forward work. -/
theorem evaluateGen_single_adj (assigns : List Nat) (seed sens : List Int) :
    evaluateGen assigns ⟨none, none, [], [], [some seed], [some sens]⟩ =
      ⟨none, none, [], [],
       [some (adjointPass assigns (sens, seed)).2],
       [some (adjointPass assigns (sens, seed)).1]⟩ := by
  rfl

/-- C1: for every finalized SelectionNode, when both primal buffers are
present, primal evaluation writes `out[k] = in[assigns[k]]` for every
output nonzero index `k`; when either buffer is absent the primal step
is skipped entirely (the output buffer is returned unmodified, and the
input buffer is never written), without error. -/
theorem evaluateGen_primal_spec (assigns : List Nat) (b : EvalArgs) :
    (∀ inp out, b.input = some inp → b.output = some out →
      ∃ out', (evaluateGen assigns b).output = some out' ∧
        out'.length = out.length ∧
        ∀ k, k < assigns.length → k < out.length →
          out'.getD k 0 = inp.getD (assigns.getD k 0) 0) ∧
    ((b.input = none ∨ b.output = none) → (evaluateGen assigns b).output = b.output) ∧
    (evaluateGen assigns b).input = b.input := by
  refine ⟨?_, ?_, rfl⟩
  · intro inp out hi ho
    refine ⟨gatherWrite 0 assigns inp out, ?_, ?_, ?_⟩
    · show (match b.input, b.output with
        | some i, some o => some (gatherWrite 0 assigns i o)
        | _, _ => b.output) = some (gatherWrite 0 assigns inp out)
      rw [hi, ho]
    · exact writeAll_length _ _ _
    · intro k hk hko
      unfold gatherWrite
      rw [writeAll_getD, if_pos ⟨hk, hko⟩]
  · intro h
    show (match b.input, b.output with
      | some i, some o => some (gatherWrite 0 assigns i o)
      | _, _ => b.output) = b.output
    rcases h with h | h
    · rw [h]
    · rw [h]
      rcases b.input with _ | i <;> rfl

/-- Witness for C1: `assigns = [3,1]`, input values `[10,20,30,40]` (the
spec's end-to-end scenario) with both buffers present, and the
input-absent skip case. -/
theorem evaluateGen_primal_spec_witness :
    ((⟨some [10, 20, 30, 40], some [0, 0], [], [], [], []⟩ : EvalArgs).input =
        some [10, 20, 30, 40]) ∧
    (∃ out',
      (evaluateGen [3, 1]
        ⟨some [10, 20, 30, 40], some [0, 0], [], [], [], []⟩).output = some out' ∧
      out'.length = ([0, 0] : List Int).length ∧
      ∀ k, k < ([3, 1] : List Nat).length → k < ([0, 0] : List Int).length →
        out'.getD k 0 = ([10, 20, 30, 40] : List Int).getD (([3, 1] : List Nat).getD k 0) 0) ∧
    (evaluateGen [3, 1] ⟨none, some [7, 7], [], [], [], []⟩).output = some [7, 7] :=
  ⟨rfl,
   (evaluateGen_primal_spec [3, 1] ⟨some [10, 20, 30, 40], some [0, 0], [], [], [], []⟩).1
     [10, 20, 30, 40] [0, 0] rfl rfl,
   (evaluateGen_primal_spec [3, 1] ⟨none, some [7, 7], [], [], [], []⟩).2.1 (Or.inl rfl)⟩

/-- C2: for one reverse direction with both buffers present, adjoint
propagation adds `outAdjoint[k]` into `inAdjoint[assigns[k]]` (duplicate
source indices accumulating by summation) and resets every consumed
`outAdjoint[k]` to zero; in particular `assigns = [0,0,0]` with adjoint
seed `[1,2,3]` contributes `6` to input adjoint index `0`. -/
theorem evaluateGen_adjoint_spec (assigns : List Nat) (seed sens : List Int)
    (i : Nat) (hi : i < sens.length) :
    ∃ sens' seed',
      (evaluateGen assigns ⟨none, none, [], [], [some seed], [some sens]⟩).adjSens =
        [some sens'] ∧
      (evaluateGen assigns ⟨none, none, [], [], [some seed], [some sens]⟩).adjSeed =
        [some seed'] ∧
      sens'.getD i 0 = sens.getD i 0 +
        (((List.range assigns.length).filter (fun k => assigns.getD k 0 = i)).map
          (fun k => seed.getD k 0)).sum ∧
      (∀ k, k < assigns.length → seed'.getD k 0 = 0) ∧
      (evaluateGen [0, 0, 0] ⟨none, none, [], [], [some [1, 2, 3]], [some [0]]⟩).adjSens =
        [some [6]] := by
  refine ⟨(adjointPass assigns (sens, seed)).1, (adjointPass assigns (sens, seed)).2,
    ?_, ?_, ?_, ?_, ?_⟩
  · rw [evaluateGen_single_adj]
  · rw [evaluateGen_single_adj]
  · unfold adjointPass
    rw [scatterPass_fst_getD _ _ _ _ _ _ hi, foldl_add_eq_sum]
  · intro k hk
    exact scatterPass_snd_getD _ _ _ _ _ _ hk
  · decide

/-- Witness for C2: the spec's end-to-end scenario, `assigns = [3,1]`,
adjoint seed `[5,7]` into a 4-nonzero input adjoint buffer. -/
theorem evaluateGen_adjoint_spec_witness :
    (1 < ([0, 0, 0, 0] : List Int).length) ∧
    (∃ sens' seed',
      (evaluateGen [3, 1] ⟨none, none, [], [], [some [5, 7]], [some [0, 0, 0, 0]]⟩).adjSens =
        [some sens'] ∧
      (evaluateGen [3, 1] ⟨none, none, [], [], [some [5, 7]], [some [0, 0, 0, 0]]⟩).adjSeed =
        [some seed'] ∧
      sens'.getD 1 0 = ([0, 0, 0, 0] : List Int).getD 1 0 +
        (((List.range ([3, 1] : List Nat).length).filter
            (fun k => ([3, 1] : List Nat).getD k 0 = 1)).map
          (fun k => ([5, 7] : List Int).getD k 0)).sum ∧
      (∀ k, k < ([3, 1] : List Nat).length → seed'.getD k 0 = 0) ∧
      (evaluateGen [0, 0, 0] ⟨none, none, [], [], [some [1, 2, 3]], [some [0]]⟩).adjSens =
        [some [6]]) :=
  ⟨by decide, evaluateGen_adjoint_spec [3, 1] [5, 7] [0, 0, 0, 0] 1 (by decide)⟩

/-- C5: calling reverse adjoint propagation twice in a row with the same
pair of buffers equals calling it once, because the first call zeroes
the consumed adjoint seed buffer. -/
theorem evaluateGen_adjoint_idem (assigns : List Nat) (seed sens : List Int) :
    evaluateGen assigns
        (evaluateGen assigns ⟨none, none, [], [], [some seed], [some sens]⟩) =
      evaluateGen assigns ⟨none, none, [], [], [some seed], [some sens]⟩ := by
  rw [evaluateGen_single_adj, evaluateGen_single_adj]
  have h : adjointPass assigns
      ((adjointPass assigns (sens, seed)).1, (adjointPass assigns (sens, seed)).2) =
      adjointPass assigns (sens, seed) := by
    rw [Prod.mk.eta]
    exact scatterPass_idem (· + ·) 0 assigns (sens, seed) fun x => by ring
  rw [h]

/-- C6: forward taint propagation is plain assignment
`outTaint[k] = inTaint[assigns[k]]`, and reverse taint propagation is
`inTaint[assigns[k]] |= outTaint[k]` followed by `outTaint[k] = 0`, for
every output nonzero `k`. -/
theorem propagateSparsity_spec (assigns : List Nat) (tin tout : List Bool) :
    (∃ tout', propagateSparsity assigns (some tin) (some tout) true = (some tin, some tout') ∧
      ∀ k, k < assigns.length → k < tout.length →
        tout'.getD k false = tin.getD (assigns.getD k 0) false) ∧
    (∃ tin' tout', propagateSparsity assigns (some tin) (some tout) false = (some tin', some tout') ∧
      (∀ i, i < tin.length →
        tin'.getD i false = (tin.getD i false ||
          ((List.range assigns.length).filter (fun k => assigns.getD k 0 = i)).any
            (fun k => tout.getD k false))) ∧
      (∀ k, k < assigns.length → tout'.getD k false = false)) := by
  constructor
  · refine ⟨gatherWrite false assigns tin tout, rfl, ?_⟩
    intro k hk hko
    unfold gatherWrite
    rw [writeAll_getD, if_pos ⟨hk, hko⟩]
  · refine ⟨(scatterPass (· || ·) false assigns (tin, tout)).1,
      (scatterPass (· || ·) false assigns (tin, tout)).2, rfl, ?_, ?_⟩
    · intro i hi
      rw [scatterPass_fst_getD _ _ _ _ _ _ hi, foldl_or_eq_any]
    · intro k hk
      exact scatterPass_snd_getD _ _ _ _ _ _ hk

/-- Witness for C6 at `assigns = [0,0,1]` with taints
`in = [true,false]`, `out = [false,true,true]`. -/
theorem propagateSparsity_spec_witness :
    (∃ tout', propagateSparsity [0, 0, 1] (some [true, false]) (some [false, true, true]) true =
        (some [true, false], some tout') ∧
      ∀ k, k < ([0, 0, 1] : List Nat).length → k < ([false, true, true] : List Bool).length →
        tout'.getD k false = ([true, false] : List Bool).getD (([0, 0, 1] : List Nat).getD k 0) false) ∧
    (∃ tin' tout', propagateSparsity [0, 0, 1] (some [true, false]) (some [false, true, true]) false =
        (some tin', some tout') ∧
      (∀ i, i < ([true, false] : List Bool).length →
        tin'.getD i false = (([true, false] : List Bool).getD i false ||
          ((List.range ([0, 0, 1] : List Nat).length).filter
            (fun k => ([0, 0, 1] : List Nat).getD k 0 = i)).any
            (fun k => ([false, true, true] : List Bool).getD k false))) ∧
      (∀ k, k < ([0, 0, 1] : List Nat).length → tout'.getD k false = false)) :=
  propagateSparsity_spec [0, 0, 1] [true, false] [false, true, true]

/-- C7: `isIdentity()` returns true iff the node's output sparsity
pattern equals its dependency's sparsity pattern and `assigns[k] = k`
for every output nonzero `k`. -/
theorem isIdentity_iff (n : GetNonzeros) (dsp : CRSSparsity)
    (hdep : n.deps.head? = some dsp) :
    n.isIdentity = true ↔
      (n.sp = dsp ∧ ∀ k, k < n.assigns.length → n.assigns.getD k 0 = k) := by
  unfold GetNonzeros.isIdentity
  rw [hdep]
  show (if n.sp = dsp then
      (List.range n.assigns.length).all fun k => n.assigns.getD k 0 == k
    else false) = true ↔ _
  by_cases hsp : n.sp = dsp
  · rw [if_pos hsp]
    rw [List.all_eq_true]
    constructor
    · intro hall
      refine ⟨hsp, fun k hk => ?_⟩
      exact beq_iff_eq.mp (hall k (List.mem_range.mpr hk))
    · rintro ⟨-, hall⟩
      intro k hk
      exact beq_iff_eq.mpr (hall k (List.mem_range.mp hk))
  · rw [if_neg hsp]
    simp [hsp]

/-- Witness for C7: `assigns = [0,1,2]` over a 3-nonzero pattern equal
to the dependency's pattern; also checks (by computing `isIdentity`)
that this node does report the identity and that the permutation
`[0,2,1]` does not. -/
theorem isIdentity_iff_witness :
    ((⟨⟨1, 3, [0, 3], [0, 1, 2]⟩, [⟨1, 3, [0, 3], [0, 1, 2]⟩], [0, 1, 2]⟩ :
        GetNonzeros).deps.head? = some ⟨1, 3, [0, 3], [0, 1, 2]⟩) ∧
    ((⟨⟨1, 3, [0, 3], [0, 1, 2]⟩, [⟨1, 3, [0, 3], [0, 1, 2]⟩], [0, 1, 2]⟩ :
        GetNonzeros).isIdentity = true ↔
      ((⟨⟨1, 3, [0, 3], [0, 1, 2]⟩, [⟨1, 3, [0, 3], [0, 1, 2]⟩], [0, 1, 2]⟩ :
          GetNonzeros).sp = ⟨1, 3, [0, 3], [0, 1, 2]⟩ ∧
        ∀ k, k < ([0, 1, 2] : List Nat).length → ([0, 1, 2] : List Nat).getD k 0 = k)) ∧
    ((⟨⟨1, 3, [0, 3], [0, 1, 2]⟩, [⟨1, 3, [0, 3], [0, 1, 2]⟩], [0, 1, 2]⟩ :
        GetNonzeros).isIdentity = true) ∧
    ((⟨⟨1, 3, [0, 3], [0, 1, 2]⟩, [⟨1, 3, [0, 3], [0, 1, 2]⟩], [0, 2, 1]⟩ :
        GetNonzeros).isIdentity = false) :=
  ⟨rfl, isIdentity_iff _ ⟨1, 3, [0, 3], [0, 1, 2]⟩ rfl, by decide, by decide⟩

theorem assign_nonempty_some (n : GetNonzeros) (dsp : CRSSparsity) (inz : List Nat)
    (b : Bool) (hne : ¬inz.isEmpty) :
    n.assign (some dsp) inz b =
      if inz.length = n.sp.size then
        Except.ok { n with deps := n.deps ++ [dsp],
                           assigns := writeAll (fun k => inz.getD k 0) inz.length n.assigns }
      else Except.error CtorError.ShapeMismatch := by
  unfold GetNonzeros.assign
  rw [if_neg hne]

/-- C4 counterexample: a non-empty mapping of the wrong length combined
with a null dependency fails with `DanglingDependency`, not with
`ShapeMismatch` as the claim ("fails with ShapeMismatch whenever the
length of assigns differs from the output nonzero count") requires. -/
theorem assign_shape_first_counterexample :
    (([5] : List Nat).length ≠ (GetNonzeros.ofSparsity ⟨1, 2, [0, 2], [0, 1]⟩).sp.size) ∧
    (GetNonzeros.ofSparsity ⟨1, 2, [0, 2], [0, 1]⟩).assign none [5] false =
      Except.error CtorError.DanglingDependency ∧
    ¬((GetNonzeros.ofSparsity ⟨1, 2, [0, 2], [0, 1]⟩).assign none [5] false =
      Except.error CtorError.ShapeMismatch) := by
  decide

/-- C4 amended: with a non-empty mapping, a null dependency fails with
`DanglingDependency` (checked first), then a length/output-size mismatch
fails with `ShapeMismatch`; an empty mapping is a no-op success before
either check, leaving the node as constructed (all-zero `assigns`
table); a valid call succeeds and installs the mapping. -/
theorem assign_error_spec (n : GetNonzeros) (d : Option CRSSparsity) (inz : List Nat)
    (b : Bool) :
    (inz = [] → n.assign d inz b = Except.ok n) ∧
    (inz ≠ [] → d = none → n.assign d inz b = Except.error CtorError.DanglingDependency) ∧
    (∀ dsp, inz ≠ [] → d = some dsp → inz.length ≠ n.sp.size →
      n.assign d inz b = Except.error CtorError.ShapeMismatch) ∧
    (∀ dsp, inz ≠ [] → d = some dsp → inz.length = n.sp.size →
      ∃ n', n.assign d inz b = Except.ok n' ∧
        n'.sp = n.sp ∧ n'.deps = n.deps ++ [dsp] ∧
        n'.assigns.length = n.assigns.length ∧
        ∀ k, k < inz.length → k < n.assigns.length →
          n'.assigns.getD k 0 = inz.getD k 0) ∧
    (GetNonzeros.ofSparsity n.sp).assigns = List.replicate n.sp.size 0 := by
  refine ⟨?_, ?_, ?_, ?_, rfl⟩
  · intro h
    subst h
    rfl
  · intro hne hd
    subst hd
    unfold GetNonzeros.assign
    rw [if_neg (by simpa using hne)]
  · intro dsp hne hd hlen
    subst hd
    rw [assign_nonempty_some _ _ _ _ (by simpa using hne), if_neg hlen]
  · intro dsp hne hd hlen
    subst hd
    refine ⟨{ n with
        deps := n.deps ++ [dsp]
        assigns := writeAll (fun k => inz.getD k 0) inz.length n.assigns },
      ?_, rfl, rfl, writeAll_length _ _ _, ?_⟩
    · rw [assign_nonempty_some _ _ _ _ (by simpa using hne), if_pos hlen]
    · intro k hk hka
      show (writeAll (fun k => inz.getD k 0) inz.length n.assigns).getD k 0 = inz.getD k 0
      rw [writeAll_getD, if_pos ⟨hk, hka⟩]

/-- Witness for C4 (amended) covering all four branches on a 2-nonzero
output pattern. -/
theorem assign_error_spec_witness :
    ((GetNonzeros.ofSparsity ⟨1, 2, [0, 2], [0, 1]⟩).assign (some ⟨2, 2, [0, 1, 2], [0, 1]⟩)
        [] true = Except.ok (GetNonzeros.ofSparsity ⟨1, 2, [0, 2], [0, 1]⟩)) ∧
    ((GetNonzeros.ofSparsity ⟨1, 2, [0, 2], [0, 1]⟩).assign none [9] true =
      Except.error CtorError.DanglingDependency) ∧
    ((GetNonzeros.ofSparsity ⟨1, 2, [0, 2], [0, 1]⟩).assign (some ⟨2, 2, [0, 1, 2], [0, 1]⟩)
        [9] true = Except.error CtorError.ShapeMismatch) ∧
    (∃ n', (GetNonzeros.ofSparsity ⟨1, 2, [0, 2], [0, 1]⟩).assign
        (some ⟨2, 2, [0, 1, 2], [0, 1]⟩) [1, 0] true = Except.ok n' ∧
      n'.sp = (GetNonzeros.ofSparsity ⟨1, 2, [0, 2], [0, 1]⟩).sp ∧
      n'.deps = (GetNonzeros.ofSparsity ⟨1, 2, [0, 2], [0, 1]⟩).deps ++
        [⟨2, 2, [0, 1, 2], [0, 1]⟩] ∧
      n'.assigns.length = (GetNonzeros.ofSparsity ⟨1, 2, [0, 2], [0, 1]⟩).assigns.length ∧
      ∀ k, k < ([1, 0] : List Nat).length →
        k < (GetNonzeros.ofSparsity ⟨1, 2, [0, 2], [0, 1]⟩).assigns.length →
          n'.assigns.getD k 0 = ([1, 0] : List Nat).getD k 0) :=
  ⟨(assign_error_spec (GetNonzeros.ofSparsity ⟨1, 2, [0, 2], [0, 1]⟩)
      (some ⟨2, 2, [0, 1, 2], [0, 1]⟩) [] true).1 rfl,
   (assign_error_spec (GetNonzeros.ofSparsity ⟨1, 2, [0, 2], [0, 1]⟩)
      none [9] true).2.1 (by decide) rfl,
   (assign_error_spec (GetNonzeros.ofSparsity ⟨1, 2, [0, 2], [0, 1]⟩)
      (some ⟨2, 2, [0, 1, 2], [0, 1]⟩) [9] true).2.2.1 _ (by decide) rfl (by decide),
   (assign_error_spec (GetNonzeros.ofSparsity ⟨1, 2, [0, 2], [0, 1]⟩)
      (some ⟨2, 2, [0, 1, 2], [0, 1]⟩) [1, 0] true).2.2.2.1 _ (by decide) rfl (by decide)⟩

theorem foldl_concat_eq_append_map {α β : Type} (f : α → β) (l : List α) (acc : List β) :
    l.foldl (fun a x => a.concat (f x)) acc = acc ++ l.map f := by
  induction l generalizing acc with
  | nil => simp
  | cons x xs ih =>
    rw [List.foldl_cons, ih, List.concat_eq_append, List.append_assoc,
      List.singleton_append, List.map_cons]

theorem initAssigns2_eq_map (old : List (Nat × Nat)) (assigns : List Nat) :
    initAssigns2 old assigns =
      (List.range assigns.length).map fun k => (assigns.getD k 0, k) := by
  unfold initAssigns2 clearVec
  rw [foldl_concat_eq_append_map]
  rfl

theorem initAssigns2_length (old : List (Nat × Nat)) (assigns : List Nat) :
    (initAssigns2 old assigns).length = assigns.length := by
  rw [initAssigns2_eq_map, List.length_map, List.length_range]

theorem initAssigns2_getD (old : List (Nat × Nat)) (assigns : List Nat) (k : Nat)
    (hk : k < assigns.length) :
    (initAssigns2 old assigns).getD k (0, 0) = (assigns.getD k 0, k) := by
  rw [initAssigns2_eq_map]
  have hlen : k < ((List.range assigns.length).map
      fun k => (assigns.getD k 0, k)).length := by
    rw [List.length_map, List.length_range]; exact hk
  rw [List.getD_eq_getElem _ _ hlen, List.getElem_map, List.getElem_range]

/-- C10: after `init`, the cached pair list has exactly `n` entries and
its `k`-th entry is `(assigns[k], k)` (original output order); the
previous cache contents are cleared first, so re-running `init` yields
the same list. -/
theorem initAssigns2_spec (old : List (Nat × Nat)) (assigns : List Nat) :
    (initAssigns2 old assigns).length = assigns.length ∧
    (∀ k, k < assigns.length →
      (initAssigns2 old assigns).getD k (0, 0) = (assigns.getD k 0, k)) ∧
    initAssigns2 (initAssigns2 old assigns) assigns = initAssigns2 old assigns :=
  ⟨initAssigns2_length old assigns, initAssigns2_getD old assigns, rfl⟩

/-- Witness for C10 at `assigns = [2,0,1]` with a stale nonempty cache. -/
theorem initAssigns2_spec_witness :
    (1 < ([2, 0, 1] : List Nat).length) ∧
    (initAssigns2 [(9, 9)] [2, 0, 1]).getD 1 (0, 0) = (([2, 0, 1] : List Nat).getD 1 0, 1) ∧
    initAssigns2 (initAssigns2 [(9, 9)] [2, 0, 1]) [2, 0, 1] = initAssigns2 [(9, 9)] [2, 0, 1] :=
  ⟨by decide, (initAssigns2_spec [(9, 9)] [2, 0, 1]).2.1 1 (by decide),
   (initAssigns2_spec [(9, 9)] [2, 0, 1]).2.2⟩

/-- C8: after all requested reverse directions are processed by
`evaluateMX`, every reverse adjoint seed expression the step consumed
(every seed that was present) is reset to the cleared structural-zero
expression `MX()`; absent seeds stay absent. -/
theorem clearAdjSeeds_spec (adjSeed : List (Option MXExpr)) :
    (clearAdjSeeds adjSeed).length = adjSeed.length ∧
    (∀ d e, adjSeed.getD d none = some e →
      (clearAdjSeeds adjSeed).getD d none = some MXExpr.nullExpr) ∧
    (∀ d, adjSeed.getD d none = none → (clearAdjSeeds adjSeed).getD d none = none) := by
  refine ⟨List.length_map _ _, ?_, ?_⟩
  · intro d e hd
    unfold clearAdjSeeds
    rw [List.getD_eq_getElem?_getD, List.getElem?_map]
    rw [List.getD_eq_getElem?_getD] at hd
    cases hx : adjSeed[d]? with
    | none => rw [hx] at hd; exact absurd hd (by simp)
    | some s =>
      rw [hx] at hd
      simp only [Option.getD_some] at hd
      subst hd
      rfl
  · intro d hd
    unfold clearAdjSeeds
    rw [List.getD_eq_getElem?_getD, List.getElem?_map]
    rw [List.getD_eq_getElem?_getD] at hd
    cases hx : adjSeed[d]? with
    | none => rfl
    | some s =>
      rw [hx] at hd
      simp only [Option.getD_some] at hd
      subst hd
      rfl

theorem getD_replicate {α : Type} (n m : Nat) (d : α) :
    (List.replicate n d).getD m d = d := by
  rw [List.getD_eq_getElem?_getD, List.getElem?_replicate]
  split <;> rfl

theorem cntLt_succ (a2 : List (Nat × Nat)) (v : Nat) :
    cntLt a2 (v + 1) = cntLt a2 v + cntEq a2 v := by
  unfold cntLt cntEq
  induction a2 with
  | nil => rfl
  | cons p rest ih =>
    rw [List.filter_cons, List.filter_cons, List.filter_cons]
    by_cases hlt : p.1 < v
    · rw [if_pos (decide_eq_true (Nat.lt_succ_of_lt hlt)), if_pos (decide_eq_true hlt),
        if_neg (fun h => (Nat.ne_of_lt hlt) (of_decide_eq_true h))]
      simp only [List.length_cons]
      omega
    · by_cases heq : p.1 = v
      · rw [if_pos (decide_eq_true (by omega : p.1 < v + 1)),
          if_neg (fun h => hlt (of_decide_eq_true h)), if_pos (decide_eq_true heq)]
        simp only [List.length_cons]
        omega
      · rw [if_neg (fun h => (by omega : ¬p.1 < v + 1) (of_decide_eq_true h)),
          if_neg (fun h => hlt (of_decide_eq_true h)),
          if_neg (fun h => heq (of_decide_eq_true h))]
        exact ih

theorem histFold_length (a2 : List (Nat × Nat)) (c : List Nat) :
    (a2.foldl (fun c p => c.set (p.1 + 1) (c.getD (p.1 + 1) 0 + 1)) c).length =
      c.length := by
  induction a2 generalizing c with
  | nil => rfl
  | cons p rest ih => rw [List.foldl_cons, ih, List.length_set]

theorem histFold_getD (a2 : List (Nat × Nat)) (c : List Nat) (i : Nat)
    (hkeys : ∀ q ∈ a2, q.1 + 1 < c.length) :
    (a2.foldl (fun c p => c.set (p.1 + 1) (c.getD (p.1 + 1) 0 + 1)) c).getD i 0 =
      c.getD i 0 + (a2.filter (fun q => q.1 + 1 = i)).length := by
  induction a2 generalizing c with
  | nil => simp
  | cons p rest ih =>
    rw [List.foldl_cons, List.filter_cons,
      ih _ fun q hq => by rw [List.length_set]; exact hkeys q (List.mem_cons_of_mem p hq)]
    by_cases hp : p.1 + 1 = i
    · rw [if_pos (decide_eq_true hp), hp,
        getD_set_self _ _ _ _ (hp ▸ hkeys p (List.mem_cons_self p rest)), List.length_cons]
      omega
    · rw [if_neg (fun h => hp (of_decide_eq_true h)), getD_set_of_ne _ _ _ hp]

theorem inzCountHist_length (a2 : List (Nat × Nat)) (innz : Nat) :
    (inzCountHist a2 innz).length = innz + 1 := by
  unfold inzCountHist
  rw [histFold_length, List.length_replicate]

theorem inzCountHist_getD (a2 : List (Nat × Nat)) (innz : Nat)
    (hkeys : ∀ q ∈ a2, q.1 < innz) (i : Nat) :
    (inzCountHist a2 innz).getD i 0 = (a2.filter (fun q => q.1 + 1 = i)).length := by
  unfold inzCountHist
  rw [histFold_getD _ _ _ fun q hq => by
    rw [List.length_replicate]; exact Nat.succ_lt_succ (hkeys q hq)]
  rw [getD_replicate, Nat.zero_add]

theorem inzCountCum_eq_cumAux (c : List Nat) (innz : Nat) :
    inzCountCum c innz = cumAux c innz := rfl

theorem cumAux_succ (c : List Nat) (m : Nat) :
    cumAux c (m + 1) =
      (cumAux c m).set (m + 1) ((cumAux c m).getD (m + 1) 0 + (cumAux c m).getD m 0) := by
  unfold cumAux
  rw [List.range_succ, List.foldl_concat]

theorem cumAux_invariant (a2 : List (Nat × Nat)) (c : List Nat) (innz : Nat)
    (hlen : c.length = innz + 1) (h0 : c.getD 0 0 = 0)
    (hv : ∀ v, v < innz → c.getD (v + 1) 0 = cntEq a2 v)
    (m : Nat) (hm : m ≤ innz) :
    (cumAux c m).length = innz + 1 ∧
    (∀ i, i ≤ m → (cumAux c m).getD i 0 = cntLt a2 i) ∧
    (∀ i, m < i → i ≤ innz → (cumAux c m).getD i 0 = c.getD i 0) := by
  induction m with
  | zero =>
    refine ⟨hlen, ?_, fun i _ _ => rfl⟩
    intro i hi
    rw [Nat.le_zero.mp hi]
    show c.getD 0 0 = cntLt a2 0
    rw [h0]
    show 0 = (a2.filter (fun q => q.1 < 0)).length
    rw [List.filter_eq_nil_iff.mpr fun q _ => by simp]
    rfl
  | succ m ih =>
    have hm' : m ≤ innz := Nat.le_of_succ_le hm
    obtain ⟨ih1, ih2, ih3⟩ := ih hm'
    have hm1len : m + 1 < (cumAux c m).length := by rw [ih1]; exact Nat.succ_lt_succ hm
    refine ⟨?_, ?_, ?_⟩
    · rw [cumAux_succ, List.length_set, ih1]
    · intro i hi
      rw [cumAux_succ]
      by_cases hieq : i = m + 1
      · subst hieq
        rw [getD_set_self _ _ _ _ hm1len, ih3 (m + 1) (Nat.lt_succ_self m) hm,
          hv m (Nat.lt_of_succ_le hm), ih2 m (Nat.le_refl m), cntLt_succ]
        omega
      · rw [getD_set_of_ne _ _ _ fun h => hieq h.symm]
        exact ih2 i (by omega)
    · intro i hi1 hi2
      rw [cumAux_succ, getD_set_of_ne _ _ _ fun h => by omega]
      exact ih3 i (by omega) hi2

/-- The composed histogram-plus-prefix-sum offsets: entry `v` holds the
number of cached pairs with input index below `v`. -/
theorem offsets_getD (a2 : List (Nat × Nat)) (innz : Nat)
    (hkeys : ∀ q ∈ a2, q.1 < innz) (v : Nat) (hv : v ≤ innz) :
    (inzCountCum (inzCountHist a2 innz) innz).getD v 0 = cntLt a2 v := by
  rw [inzCountCum_eq_cumAux]
  have h0 : (inzCountHist a2 innz).getD 0 0 = 0 := by
    rw [inzCountHist_getD a2 innz hkeys 0,
      List.filter_eq_nil_iff.mpr fun q _ => by simp]
    rfl
  have hval : ∀ w, w < innz → (inzCountHist a2 innz).getD (w + 1) 0 = cntEq a2 w := by
    intro w _
    rw [inzCountHist_getD a2 innz hkeys (w + 1)]
    unfold cntEq
    congr 1
    exact List.filter_congr fun q _ => by rw [decide_eq_decide]; omega
  exact (cumAux_invariant a2 (inzCountHist a2 innz) innz (inzCountHist_length a2 innz)
    h0 hval innz (Nat.le_refl innz)).2.1 v hv

theorem cumAux_length (c : List Nat) (m : Nat) : (cumAux c m).length = c.length := by
  induction m with
  | zero => rfl
  | succ m ih => rw [cumAux_succ, List.length_set, ih]

theorem offsets_length (a2 : List (Nat × Nat)) (innz : Nat) :
    (inzCountCum (inzCountHist a2 innz) innz).length = innz + 1 := by
  rw [inzCountCum_eq_cumAux, cumAux_length, inzCountHist_length]

theorem length_filter_le_filter {α : Type} (p q : α → Bool) (l : List α)
    (h : ∀ x ∈ l, p x = true → q x = true) :
    (l.filter p).length ≤ (l.filter q).length := by
  induction l with
  | nil => exact Nat.le_refl 0
  | cons x xs ih =>
    rw [List.filter_cons, List.filter_cons]
    have ih' := ih fun y hy hp => h y (List.mem_cons_of_mem x hy) hp
    by_cases hp : p x = true
    · rw [if_pos hp, if_pos (h x (List.mem_cons_self x xs) hp)]
      rw [List.length_cons, List.length_cons]
      exact Nat.succ_le_succ ih'
    · rw [if_neg hp]
      by_cases hq : q x = true
      · rw [if_pos hq, List.length_cons]
        exact Nat.le_succ_of_le ih'
      · rw [if_neg hq]
        exact ih'

theorem cntLt_mono (a2 : List (Nat × Nat)) {v v' : Nat} (h : v ≤ v') :
    cntLt a2 v ≤ cntLt a2 v' :=
  length_filter_le_filter _ _ a2 fun q _ hq =>
    decide_eq_true (by have := of_decide_eq_true hq; omega)

theorem cntEqPfx_succ (a2 : List (Nat × Nat)) (v m : Nat) (hm : m < a2.length) :
    cntEqPfx a2 v (m + 1) = cntEqPfx a2 v m + (if keyAt a2 m = v then 1 else 0) := by
  unfold cntEqPfx
  rw [List.take_succ, List.filter_append, List.length_append]
  congr 1
  rw [List.getElem?_eq_getElem hm]
  show (List.filter (fun q => decide (q.1 = v)) [a2[m]]).length = _
  rw [List.filter_cons, List.filter_nil]
  have hkey : keyAt a2 m = (a2[m]).1 := by
    unfold keyAt
    rw [List.getD_eq_getElem _ _ hm]
  by_cases hq : (a2[m]).1 = v
  · rw [if_pos (decide_eq_true hq), if_pos (hkey ▸ hq)]
    rfl
  · rw [if_neg (fun h => hq (of_decide_eq_true h)), if_neg (hkey ▸ hq)]
    rfl

theorem cntEqPfx_mono (a2 : List (Nat × Nat)) (v : Nat) {m m' : Nat} (h : m ≤ m') :
    cntEqPfx a2 v m ≤ cntEqPfx a2 v m' := by
  unfold cntEqPfx
  have htake : List.take m (List.take m' a2) = List.take m a2 := by
    rw [List.take_take, Nat.min_eq_left h]
  have hsub : (a2.take m).Sublist (a2.take m') := by
    rw [← htake]
    exact List.take_sublist m (List.take m' a2)
  exact (hsub.filter _).length_le

theorem cntEqPfx_full (a2 : List (Nat × Nat)) (v : Nat) :
    cntEqPfx a2 v a2.length = cntEq a2 v := by
  unfold cntEqPfx cntEq
  rw [List.take_length]

theorem cntLt_add_cntEq_le (a2 : List (Nat × Nat)) (v : Nat) :
    cntLt a2 v + cntEq a2 v ≤ a2.length := by
  rw [← cntLt_succ]
  exact List.length_filter_le _ _

theorem cntEqPfx_lt_cntEq (a2 : List (Nat × Nat)) (j : Nat) (hj : j < a2.length) :
    cntEqPfx a2 (keyAt a2 j) j < cntEq a2 (keyAt a2 j) := by
  have h1 : cntEqPfx a2 (keyAt a2 j) (j + 1) = cntEqPfx a2 (keyAt a2 j) j + 1 := by
    rw [cntEqPfx_succ a2 _ j hj, if_pos rfl]
  have h2 : cntEqPfx a2 (keyAt a2 j) (j + 1) ≤ cntEq a2 (keyAt a2 j) := by
    rw [← cntEqPfx_full]
    exact cntEqPfx_mono a2 _ (Nat.succ_le_of_lt hj)
  omega

theorem posOf_lt (a2 : List (Nat × Nat)) (j : Nat) (hj : j < a2.length) :
    posOf a2 j < a2.length := by
  unfold posOf
  have h1 := cntEqPfx_lt_cntEq a2 j hj
  have h2 := cntLt_add_cntEq_le a2 (keyAt a2 j)
  omega

theorem posOf_lt_of_key_lt (a2 : List (Nat × Nat)) {j j' : Nat}
    (hj : j < a2.length) (hkey : keyAt a2 j < keyAt a2 j') :
    posOf a2 j < posOf a2 j' := by
  unfold posOf
  have h1 := cntEqPfx_lt_cntEq a2 j hj
  have h2 : cntLt a2 (keyAt a2 j) + cntEq a2 (keyAt a2 j) ≤ cntLt a2 (keyAt a2 j') := by
    rw [← cntLt_succ]
    exact cntLt_mono a2 (Nat.succ_le_of_lt hkey)
  omega

theorem posOf_lt_of_key_eq (a2 : List (Nat × Nat)) {j j' : Nat} (hj : j < a2.length)
    (hkey : keyAt a2 j = keyAt a2 j') (hjj : j < j') :
    posOf a2 j < posOf a2 j' := by
  unfold posOf
  rw [hkey]
  have h2 : cntEqPfx a2 (keyAt a2 j') (j + 1) = cntEqPfx a2 (keyAt a2 j') j + 1 := by
    rw [cntEqPfx_succ a2 _ j hj, if_pos hkey]
  have h1 : cntEqPfx a2 (keyAt a2 j') (j + 1) ≤ cntEqPfx a2 (keyAt a2 j') j' :=
    cntEqPfx_mono a2 _ (Nat.succ_le_of_lt hjj)
  omega

theorem posOf_inj (a2 : List (Nat × Nat)) {j j' : Nat} (hj : j < a2.length)
    (hj' : j' < a2.length) (hne : j ≠ j') : posOf a2 j ≠ posOf a2 j' := by
  rcases Nat.lt_trichotomy (keyAt a2 j) (keyAt a2 j') with hk | hk | hk
  · exact Nat.ne_of_lt (posOf_lt_of_key_lt a2 hj hk)
  · rcases Nat.lt_trichotomy j j' with hjj | hjj | hjj
    · exact Nat.ne_of_lt (posOf_lt_of_key_eq a2 hj hk hjj)
    · exact absurd hjj hne
    · exact (Nat.ne_of_lt (posOf_lt_of_key_eq a2 hj' hk.symm hjj)).symm
  · exact (Nat.ne_of_lt (posOf_lt_of_key_lt a2 hj' hk)).symm

theorem orderAux_succ (a2 : List (Nat × Nat)) (m : Nat) (st : List Nat × List Nat) :
    orderAux a2 (m + 1) st = orderStep a2 (orderAux a2 m st) m := by
  unfold orderAux
  rw [List.range_succ, List.foldl_concat]

/-- Invariant of the placement pass: after `m` iterations the offset
table holds, for every input index `v`, the final position of the next
pair with input index `v` (`cntLt v + cntEqPfx v m`), and every
already-placed pair `j < m` sits at its stable grouped position
`posOf j`. -/
theorem orderAux_invariant (a2 : List (Nat × Nat)) (innz : Nat)
    (hkeys : ∀ j, j < a2.length → keyAt a2 j < innz)
    (offs : List Nat) (hlen : offs.length = innz + 1)
    (hoffs : ∀ v, v ≤ innz → offs.getD v 0 = cntLt a2 v)
    (m : Nat) (hm : m ≤ a2.length) :
    (orderAux a2 m (offs, List.replicate a2.length 0)).1.length = innz + 1 ∧
    (orderAux a2 m (offs, List.replicate a2.length 0)).2.length = a2.length ∧
    (∀ v, v ≤ innz →
      (orderAux a2 m (offs, List.replicate a2.length 0)).1.getD v 0 =
        cntLt a2 v + cntEqPfx a2 v m) ∧
    (∀ j, j < m →
      (orderAux a2 m (offs, List.replicate a2.length 0)).2.getD (posOf a2 j) 0 = j) := by
  induction m with
  | zero =>
    refine ⟨hlen, List.length_replicate _ _, ?_, fun j hj => absurd hj (Nat.not_lt_zero j)⟩
    intro v hv
    show offs.getD v 0 = cntLt a2 v + cntEqPfx a2 v 0
    rw [hoffs v hv]
    rfl
  | succ m ih =>
    have hm' : m ≤ a2.length := Nat.le_of_succ_le hm
    have hmlt : m < a2.length := Nat.lt_of_succ_le hm
    obtain ⟨ih1, ih2, ih3, ih4⟩ := ih hm'
    have ha_innz : keyAt a2 m < innz := hkeys m hmlt
    have hkey_def : (a2.getD m (0, 0)).1 = keyAt a2 m := rfl
    have hread : (orderAux a2 m (offs, List.replicate a2.length 0)).1.getD
        (keyAt a2 m) 0 = posOf a2 m := ih3 (keyAt a2 m) (Nat.le_of_lt ha_innz)
    rw [orderAux_succ]
    unfold orderStep
    rw [hkey_def, hread]
    refine ⟨?_, ?_, ?_, ?_⟩
    · rw [List.length_set, ih1]
    · rw [List.length_set, ih2]
    · intro v hv
      by_cases hva : v = keyAt a2 m
      · subst hva
        rw [getD_set_self _ _ _ _ (by rw [ih1]; exact Nat.lt_succ_of_lt ha_innz),
          cntEqPfx_succ a2 _ m hmlt, if_pos rfl]
        unfold posOf
        omega
      · rw [getD_set_of_ne _ _ _ fun h => hva h.symm, ih3 v hv,
          cntEqPfx_succ a2 v m hmlt, if_neg fun h => hva h.symm]
        omega
    · intro j hj
      by_cases hjm : j = m
      · subst hjm
        rw [getD_set_self _ _ _ _ (by rw [ih2]; exact posOf_lt a2 j hmlt)]
      · have hjlt : j < m := Nat.lt_of_le_of_ne (Nat.lt_succ_iff.mp hj) hjm
        rw [getD_set_of_ne _ _ _ (posOf_inj a2 hmlt (Nat.lt_trans hjlt hmlt)
          fun h => hjm h.symm), ih4 j hjlt]

theorem posOf_surj (a2 : List (Nat × Nat)) (p : Nat) (hp : p < a2.length) :
    ∃ j, j < a2.length ∧ posOf a2 j = p := by
  have hinj : Function.Injective (fun j : Fin a2.length =>
      (⟨posOf a2 j.1, posOf_lt a2 j.1 j.2⟩ : Fin a2.length)) := by
    intro x y hxy
    by_contra hne
    exact posOf_inj a2 x.2 y.2 (fun h => hne (Fin.ext h))
      (by simpa using congrArg Fin.val hxy)
  obtain ⟨j, hj⟩ := Finite.injective_iff_surjective.mp hinj ⟨p, hp⟩
  exact ⟨j.1, j.2, by simpa using congrArg Fin.val hj⟩

theorem keys_mem_of_idx (a2 : List (Nat × Nat)) (innz : Nat)
    (hkeys : ∀ j, j < a2.length → keyAt a2 j < innz) :
    ∀ q ∈ a2, q.1 < innz := by
  intro q hq
  obtain ⟨i, hi, rfl⟩ := List.mem_iff_getElem.mp hq
  have hk : keyAt a2 i = (a2[i]).1 := by
    unfold keyAt
    rw [List.getD_eq_getElem _ _ hi]
  rw [← hk]
  exact hkeys i hi

theorem orderAux_snd_len (a2 : List (Nat × Nat)) (m : Nat) (st : List Nat × List Nat) :
    (orderAux a2 m st).2.length = st.2.length := by
  induction m with
  | zero => rfl
  | succ m ih => rw [orderAux_succ]; unfold orderStep; rw [List.length_set, ih]

theorem assigns2Order_length (a2 : List (Nat × Nat)) (innz : Nat) :
    (assigns2Order a2 innz).length = a2.length := by
  unfold assigns2Order
  rw [orderAux_snd_len, List.length_replicate]

theorem assigns2Order_getD_posOf (a2 : List (Nat × Nat)) (innz : Nat)
    (hkeys : ∀ j, j < a2.length → keyAt a2 j < innz) (j : Nat) (hj : j < a2.length) :
    (assigns2Order a2 innz).getD (posOf a2 j) 0 = j := by
  unfold assigns2Order
  exact (orderAux_invariant a2 innz hkeys _ (offsets_length a2 innz)
    (offsets_getD a2 innz (keys_mem_of_idx a2 innz hkeys))
    a2.length (Nat.le_refl _)).2.2.2 j hj

theorem assigns2Order_getD (a2 : List (Nat × Nat)) (innz : Nat)
    (hkeys : ∀ j, j < a2.length → keyAt a2 j < innz) (p : Nat) (hp : p < a2.length) :
    ∃ j, j < a2.length ∧ posOf a2 j = p ∧ (assigns2Order a2 innz).getD p 0 = j := by
  obtain ⟨j, hj, hpos⟩ := posOf_surj a2 p hp
  exact ⟨j, hj, hpos, by rw [← hpos]; exact assigns2Order_getD_posOf a2 innz hkeys j hj⟩

theorem assigns2Order_nodup (a2 : List (Nat × Nat)) (innz : Nat)
    (hkeys : ∀ j, j < a2.length → keyAt a2 j < innz) :
    (assigns2Order a2 innz).Nodup := by
  rw [List.nodup_iff_getElem?_ne_getElem?]
  intro i j hij hjlen
  have hlen : (assigns2Order a2 innz).length = a2.length := assigns2Order_length a2 innz
  have hj : j < a2.length := hlen ▸ hjlen
  have hi : i < a2.length := Nat.lt_trans hij hj
  obtain ⟨ji, hji, hpi, hvi⟩ := assigns2Order_getD a2 innz hkeys i hi
  obtain ⟨jj, hjj, hpj, hvj⟩ := assigns2Order_getD a2 innz hkeys j hj
  have hilen : i < (assigns2Order a2 innz).length := hlen ▸ hi
  rw [List.getElem?_eq_getElem hilen, List.getElem?_eq_getElem hjlen]
  intro heq
  have h1 : (assigns2Order a2 innz)[i] = ji := by
    rw [← List.getD_eq_getElem _ 0 hilen]
    exact hvi
  have h2 : (assigns2Order a2 innz)[j] = jj := by
    rw [← List.getD_eq_getElem _ 0 hjlen]
    exact hvj
  have : ji = jj := by
    have := Option.some.inj heq
    rw [h1, h2] at this
    exact this
  subst this
  rw [hpi] at hpj
  omega

theorem assigns2Order_perm_range (a2 : List (Nat × Nat)) (innz : Nat)
    (hkeys : ∀ j, j < a2.length → keyAt a2 j < innz) :
    (assigns2Order a2 innz).Perm (List.range a2.length) := by
  apply List.perm_of_nodup_nodup_toFinset_eq (assigns2Order_nodup a2 innz hkeys)
    (List.nodup_range _)
  apply Finset.ext
  intro x
  simp only [List.mem_toFinset, List.mem_range]
  constructor
  · intro hx
    obtain ⟨p, hp, rfl⟩ := List.mem_iff_getElem.mp hx
    have hp' : p < a2.length := (assigns2Order_length a2 innz) ▸ hp
    obtain ⟨j, hj, hpos, hval⟩ := assigns2Order_getD a2 innz hkeys p hp'
    have hval' : (assigns2Order a2 innz)[p] = j := by
      rw [← List.getD_eq_getElem _ 0 hp]
      exact hval
    rw [hval']
    exact hj
  · intro hx
    have hplen : posOf a2 x < (assigns2Order a2 innz).length := by
      rw [assigns2Order_length a2 innz]
      exact posOf_lt a2 x hx
    rw [List.mem_iff_getElem]
    refine ⟨posOf a2 x, hplen, ?_⟩
    rw [← List.getD_eq_getElem _ 0 hplen]
    exact assigns2Order_getD_posOf a2 innz hkeys x hx

theorem map_getD_range {α : Type} (l : List α) (d : α) :
    (List.range l.length).map (fun j => l.getD j d) = l := by
  apply List.ext_getElem
  · rw [List.length_map, List.length_range]
  · intro p h1 h2
    rw [List.getElem_map, List.getElem_range]
    exact List.getD_eq_getElem l d h2

theorem keyAt_initAssigns2 (assigns : List Nat) (j : Nat) (hj : j < assigns.length) :
    keyAt (initAssigns2 [] assigns) j = assigns.getD j 0 := by
  unfold keyAt
  rw [initAssigns2_getD [] assigns j hj]

theorem initAssigns2_keys_lt (assigns : List Nat) (innz : Nat)
    (h : ∀ a ∈ assigns, a < innz) :
    ∀ j, j < (initAssigns2 [] assigns).length → keyAt (initAssigns2 [] assigns) j < innz := by
  intro j hj
  rw [initAssigns2_length] at hj
  rw [keyAt_initAssigns2 assigns j hj, List.getD_eq_getElem _ _ hj]
  exact h _ (List.getElem_mem hj)

/-- C3 counterexample: for `assigns = [1,0]` the pair list cached at
node initialization (`assigns2_`) is `[(1,0),(0,1)]`, which is not
grouped by input index ascending; the grouped order exists only in the
per-call `assigns2_order` traversal computed inside `evaluateMX`. -/
theorem cached_pairs_not_sorted_counterexample :
    initAssigns2 [] [1, 0] = [(1, 0), (0, 1)] ∧
    ¬List.Pairwise (fun p q : Nat × Nat => p.1 < q.1 ∨ (p.1 = q.1 ∧ p.2 < q.2))
      (initAssigns2 [] [1, 0]) ∧
    groupedPairs [1, 0] 2 = [(0, 1), (1, 0)] := by
  refine ⟨by decide, ?_, by decide⟩
  intro hpair
  have h := (List.pairwise_cons.mp (by
    have he : initAssigns2 [] [1, 0] = [(1, 0), (0, 1)] := by decide
    rw [he] at hpair
    exact hpair)).1 (0, 1) (List.mem_singleton.mpr rfl)
  rcases h with h | h
  · exact absurd h (by decide)
  · exact absurd h.1 (by decide)

/-- C3 amended: the node's cached pair list is the trivial pairing
`(assigns[k], k)` in original output order; the input-grouped
IndexGroupingIndex order is recomputed from it on every `evaluateMX`
call by the counting sort, and that per-call grouped pair sequence is a
permutation of the trivial pairing `{(assigns[k], k)}`, grouped by input
index ascending with ties broken by original output order (stable). -/
theorem groupedPairs_stable_sorted_perm (assigns : List Nat) (innz : Nat)
    (hkeys : ∀ a ∈ assigns, a < innz) :
    initAssigns2 [] assigns =
      ((List.range assigns.length).map fun k => (assigns.getD k 0, k)) ∧
    (groupedPairs assigns innz).Perm
      ((List.range assigns.length).map fun k => (assigns.getD k 0, k)) ∧
    List.Pairwise (fun p q => p.1 < q.1 ∨ (p.1 = q.1 ∧ p.2 < q.2))
      (groupedPairs assigns innz) := by
  have hk2 := initAssigns2_keys_lt assigns innz hkeys
  have hlen2 : (initAssigns2 [] assigns).length = assigns.length :=
    initAssigns2_length [] assigns
  refine ⟨initAssigns2_eq_map [] assigns, ?_, ?_⟩
  · unfold groupedPairs
    have hperm := (assigns2Order_perm_range (initAssigns2 [] assigns) innz hk2).map
      fun j => (initAssigns2 [] assigns).getD j (0, 0)
    have hmap : (List.range (initAssigns2 [] assigns).length).map
        (fun j => (initAssigns2 [] assigns).getD j (0, 0)) = initAssigns2 [] assigns :=
      map_getD_range _ _
    rw [hmap] at hperm
    rw [← initAssigns2_eq_map [] assigns]
    exact hperm
  · rw [List.pairwise_iff_getElem]
    intro i j hi hj hij
    have hglen : (groupedPairs assigns innz).length =
        (initAssigns2 [] assigns).length := by
      unfold groupedPairs
      rw [List.length_map, assigns2Order_length]
    have hi2 : i < (initAssigns2 [] assigns).length := hglen ▸ hi
    have hj2 : j < (initAssigns2 [] assigns).length := hglen ▸ hj
    have hiord : i < (assigns2Order (initAssigns2 [] assigns) innz).length := by
      rw [assigns2Order_length]
      exact hi2
    have hjord : j < (assigns2Order (initAssigns2 [] assigns) innz).length := by
      rw [assigns2Order_length]
      exact hj2
    obtain ⟨ji, hji, hpi, hvi⟩ := assigns2Order_getD (initAssigns2 [] assigns) innz hk2 i hi2
    obtain ⟨jj, hjj, hpj, hvj⟩ := assigns2Order_getD (initAssigns2 [] assigns) innz hk2 j hj2
    have hgi : (groupedPairs assigns innz)[i] =
        (initAssigns2 [] assigns).getD ji (0, 0) := by
      unfold groupedPairs
      rw [List.getElem_map]
      congr 1
      rw [← List.getD_eq_getElem _ 0 hiord]
      exact hvi
    have hgj : (groupedPairs assigns innz)[j] =
        (initAssigns2 [] assigns).getD jj (0, 0) := by
      unfold groupedPairs
      rw [List.getElem_map]
      congr 1
      rw [← List.getD_eq_getElem _ 0 hjord]
      exact hvj
    rw [hgi, hgj, initAssigns2_getD [] assigns ji (hlen2 ▸ hji),
      initAssigns2_getD [] assigns jj (hlen2 ▸ hjj)]
    show assigns.getD ji 0 < assigns.getD jj 0 ∨
      (assigns.getD ji 0 = assigns.getD jj 0 ∧ ji < jj)
    have hkeq : ∀ x, x < (initAssigns2 [] assigns).length →
        keyAt (initAssigns2 [] assigns) x = assigns.getD x 0 := fun x hx =>
      keyAt_initAssigns2 assigns x (hlen2 ▸ hx)
    rcases Nat.lt_trichotomy (assigns.getD ji 0) (assigns.getD jj 0) with hlt | heqk | hgt
    · exact Or.inl hlt
    · refine Or.inr ⟨heqk, ?_⟩
      rcases Nat.lt_trichotomy ji jj with hjlt | hjeq | hjgt
      · exact hjlt
      · subst hjeq
        rw [hpi] at hpj
        omega
      · exfalso
        have : posOf (initAssigns2 [] assigns) jj < posOf (initAssigns2 [] assigns) ji :=
          posOf_lt_of_key_eq _ hjj (by rw [hkeq jj hjj, hkeq ji hji, heqk]) hjgt
        rw [hpi, hpj] at this
        omega
    · exfalso
      have : posOf (initAssigns2 [] assigns) jj < posOf (initAssigns2 [] assigns) ji :=
        posOf_lt_of_key_lt _ hjj (by rw [hkeq jj hjj, hkeq ji hji]; exact hgt)
      rw [hpi, hpj] at this
      omega

/-- Witness for C3 (amended) at `assigns = [1,0,1]`, `innz = 2`. -/
theorem groupedPairs_stable_sorted_perm_witness :
    (∀ a ∈ ([1, 0, 1] : List Nat), a < 2) ∧
    (initAssigns2 [] [1, 0, 1] =
      ((List.range ([1, 0, 1] : List Nat).length).map fun k =>
        (([1, 0, 1] : List Nat).getD k 0, k)) ∧
    (groupedPairs [1, 0, 1] 2).Perm
      ((List.range ([1, 0, 1] : List Nat).length).map fun k =>
        (([1, 0, 1] : List Nat).getD k 0, k)) ∧
    List.Pairwise (fun p q => p.1 < q.1 ∨ (p.1 = q.1 ∧ p.2 < q.2))
      (groupedPairs [1, 0, 1] 2)) :=
  ⟨by decide, groupedPairs_stable_sorted_perm [1, 0, 1] 2 (by decide)⟩

/-- Interning returns an index that resolves to the requested vector,
and preserves every existing pool entry. -/
theorem getConstant_lookup (g : CodeGenerator) (v : List Nat) :
    ((g.getConstant v).2.constants)[(g.getConstant v).1]? = some v ∧
    ∀ (i : Nat) (w : List Nat), g.constants[i]? = some w →
      ((g.getConstant v).2.constants)[i]? = some w := by
  unfold CodeGenerator.getConstant
  cases hf : g.constants.findIdx? (fun w => w = v) with
  | some i =>
    rw [List.findIdx?_eq_some_iff_findIdx_eq] at hf
    obtain ⟨hlen, hidx⟩ := hf
    subst hidx
    constructor
    · have hp := @List.findIdx_getElem _ (fun w => decide (w = v)) g.constants hlen
      rw [List.getElem?_eq_getElem hlen, of_decide_eq_true hp]
    · intro i w hw
      exact hw
  | none =>
    constructor
    · rw [List.concat_eq_append]
      exact List.getElem?_concat_length _ _
    · intro i w hw
      obtain ⟨hilen, -⟩ := List.getElem?_eq_some.mp hw
      rw [List.concat_eq_append, List.getElem?_append_left hilen]
      exact hw

/-- C9: code emission produces exactly one zero-fill statement over the
full output nonzero range followed by exactly one accumulate statement
driven by the cached (inputIndex, outputIndex) pair list, whose two
index columns are interned in the constant pool; nothing else is
emitted. -/
theorem generateOperation_spec (node : GetNonzeros) (arg res : String)
    (gen : CodeGenerator) :
    ∃ i1 i2,
      (generateOperation node arg res gen).1 =
        [GenStmt.zeroFill res node.sp.size,
         GenStmt.accumLoop res arg i1 i2 (initAssigns2 [] node.assigns).length] ∧
      ((generateOperation node arg res gen).2.constants)[i1]? =
        some ((initAssigns2 [] node.assigns).map Prod.fst) ∧
      ((generateOperation node arg res gen).2.constants)[i2]? =
        some ((initAssigns2 [] node.assigns).map Prod.snd) := by
  refine ⟨(gen.getConstant ((initAssigns2 [] node.assigns).map Prod.fst)).1,
    ((gen.getConstant ((initAssigns2 [] node.assigns).map Prod.fst)).2.getConstant
      ((initAssigns2 [] node.assigns).map Prod.snd)).1, rfl, ?_, ?_⟩
  · exact (getConstant_lookup _ _).2 _ _ (getConstant_lookup gen _).1
  · exact (getConstant_lookup _ _).1

/-- Witness for C8 with one present and one absent seed. -/
theorem clearAdjSeeds_spec_witness :
    (clearAdjSeeds [some (MXExpr.node 3), none]).length =
      ([some (MXExpr.node 3), none] : List (Option MXExpr)).length ∧
    (clearAdjSeeds [some (MXExpr.node 3), none]).getD 0 none = some MXExpr.nullExpr ∧
    (clearAdjSeeds [some (MXExpr.node 3), none]).getD 1 none = none :=
  ⟨(clearAdjSeeds_spec [some (MXExpr.node 3), none]).1,
   (clearAdjSeeds_spec [some (MXExpr.node 3), none]).2.1 0 (MXExpr.node 3) rfl,
   (clearAdjSeeds_spec [some (MXExpr.node 3), none]).2.2 1 rfl⟩

end CasADi

